import Mathlib

/-!
Shallow embedding of `src/python/fastpitch1_1/fastpitch.py` (xVA-Synth
FastPitch 1.1 acoustic model): the length regulator (`regulate_len`), the
interval averager (`average_pitch`), the incremental-resynthesis splice
logic and prediction clamping of `FastPitch.infer_using_vals`, the side-data
dispatch and error fallback of `FastPitch.infer_advanced`, and the training
duration-sum assertion of `FastPitch.forward`.

Real values carried by tensors are modelled as rationals; the opaque neural
modules (encoder, decoder, temporal predictors, `torch.exp`) are parameters
of the embedded functions, since only the surrounding arithmetic is under
verification.
-/

namespace FastPitchModel

/-- A feature vector (one row of `enc_out`): a list of rationals. -/
abbrev Vec := List ℚ

/-- Python `.long()` cast of a real scalar: truncation toward zero. -/
def pyLong (v : ℚ) : ℤ := if 0 ≤ v then ⌊v⌋ else ⌈v⌉

/-- `torch.cumsum` with a leading zero (the `F.pad(..., (1, 0), value=0)`
idiom): `cumsum0 l` has length `l.length + 1`, entry `j` is the sum of the
first `j` elements of `l`. -/
def cumsum0 : List ℤ → List ℤ
  | [] => [0]
  | x :: xs => 0 :: (cumsum0 xs).map (x + ·)

/-- `reps = (durations.float() / pace + 0.5).long()` from `regulate_len`. -/
def repsOf (pace : ℚ) (durations : List ℚ) : List ℤ :=
  durations.map (fun d => pyLong (d / pace + 1/2))

/-- `dec_lens = reps.sum(dim=1)` for one sample. -/
def decLen (pace : ℚ) (durations : List ℚ) : ℤ :=
  (repsOf pace durations).sum

/-- `max_len = dec_lens.max()` over the batch, as a frame count
(`torch.arange(max_len)` is empty when `max_len ≤ 0`). -/
def maxLen (pace : ℚ) (batchDurs : List (List ℚ)) : ℕ :=
  (batchDurs.map (fun d => (decLen pace d).toNat)).foldr max 0

/-- Row `t` of the boolean selection matrix
`mult = (reps_cumsum[:, :, :-1] <= range_) & (reps_cumsum[:, :, 1:] > range_)`:
entry `j` is 1 when frame `t` falls in token `j`'s cumulative interval. -/
def multRow (reps : List ℤ) (t : ℤ) : List ℚ :=
  (List.range reps.length).map (fun j =>
    if (cumsum0 reps).getD j 0 ≤ t ∧ t < (cumsum0 reps).getD (j+1) 0 then 1 else 0)

/-- Scalar–vector product. -/
def vsmul (c : ℚ) (v : Vec) : Vec := v.map (fun x => c * x)

/-- Pointwise vector addition (vectors of equal length). -/
def vadd (a b : Vec) : Vec := List.zipWith (· + ·) a b

/-- The all-zero vector of dimension `D`. -/
def vzero (D : ℕ) : Vec := List.replicate D 0

/-- One row of `torch.matmul(mult, enc_out)`: `Σ_j row[j] • encOut[j]`. -/
def matVec (row : List ℚ) (encOut : List Vec) (D : ℕ) : Vec :=
  (List.zipWith vsmul row encOut).foldr vadd (vzero D)

/-- Frame `t` of `enc_rep` for one sample of `regulate_len`. -/
def regulateFrame (pace : ℚ) (durations : List ℚ) (encOut : List Vec)
    (D : ℕ) (t : ℕ) : Vec :=
  matVec (multRow (repsOf pace durations) t) encOut D

/-- All `numFrames` output frames of `regulate_len` for one sample. -/
def regulateSample (pace : ℚ) (durations : List ℚ) (encOut : List Vec)
    (D : ℕ) (numFrames : ℕ) : List Vec :=
  (List.range numFrames).map (regulateFrame pace durations encOut D)

/-- `regulate_len(durations, enc_out, pace, mel_max_len)` over a batch of
(durations, encoder output) samples with feature dimension `D`: returns
`(enc_rep, dec_lens)`.  When `melMaxLen` is given, frames are truncated to it
and lengths clamped to it (`torch.clamp_max`). -/
def regulate_len (pace : ℚ) (batch : List (List ℚ × List Vec)) (D : ℕ)
    (melMaxLen : Option ℕ := none) : List (List Vec) × List ℤ :=
  let n := maxLen pace (batch.map Prod.fst)
  let encRep := batch.map (fun s => regulateSample pace s.1 s.2 D n)
  let decLens := batch.map (fun s => decLen pace s.1)
  match melMaxLen with
  | none => (encRep, decLens)
  | some m => (encRep.map (fun frames => frames.take m),
               decLens.map (fun l => min l (m : ℤ)))

/-! ### Helper lemmas about `cumsum0`, vectors and `matVec` -/

theorem cumsum0_length (l : List ℤ) : (cumsum0 l).length = l.length + 1 := by
  induction l with
  | nil => rfl
  | cons x xs ih => simp [cumsum0, ih]

theorem cumsum0_getD_zero (l : List ℤ) : (cumsum0 l).getD 0 0 = 0 := by
  cases l <;> rfl

theorem cumsum0_getD_succ (r : ℤ) (rs : List ℤ) (j : ℕ) (h : j ≤ rs.length) :
    (cumsum0 (r :: rs)).getD (j+1) 0 = r + (cumsum0 rs).getD j 0 := by
  have hj : j < (cumsum0 rs).length := by rw [cumsum0_length]; omega
  simp only [cumsum0, List.getD_cons_succ]
  rw [List.getD_eq_getElem _ _ (by simpa), List.getD_eq_getElem _ _ hj, List.getElem_map]

theorem cumsum0_getD_eq_sum_take (l : List ℤ) (j : ℕ) (h : j ≤ l.length) :
    (cumsum0 l).getD j 0 = (l.take j).sum := by
  induction l generalizing j with
  | nil =>
    have hj0 : j = 0 := by simpa using h
    subst hj0; rfl
  | cons x xs ih =>
    cases j with
    | zero => rw [cumsum0_getD_zero]; rfl
    | succ j =>
      rw [cumsum0_getD_succ x xs j (by simpa using h), ih j (by simpa using h)]
      simp

theorem cumsum0_getD_mono (l : List ℤ) (hnn : ∀ r ∈ l, 0 ≤ r) (i j : ℕ)
    (hij : i ≤ j) (hj : j ≤ l.length) : (cumsum0 l).getD i 0 ≤ (cumsum0 l).getD j 0 := by
  rw [cumsum0_getD_eq_sum_take l i (le_trans hij hj), cumsum0_getD_eq_sum_take l j hj]
  have hsplit : l.take j = l.take i ++ ((l.drop i).take (j - i)) := by
    rw [← List.take_add]
    congr 1
    omega
  rw [hsplit, List.sum_append]
  have : 0 ≤ ((l.drop i).take (j - i)).sum :=
    List.sum_nonneg (fun r hr =>
      hnn r (List.mem_of_mem_drop (List.mem_of_mem_take hr)))
  omega

theorem vadd_vzero (v : Vec) (D : ℕ) (h : v.length = D) : vadd v (vzero D) = v := by
  subst h
  induction v with
  | nil => rfl
  | cons x xs ih =>
    simp only [vadd, vzero] at ih ⊢
    simp [List.replicate_succ, List.length_cons, ih]

theorem vsmul_one (v : Vec) : vsmul 1 v = v := by
  simp [vsmul]

theorem vsmul_zero_vadd (v w : Vec) (h : v.length = w.length) :
    vadd (vsmul 0 v) w = w := by
  induction v generalizing w with
  | nil => cases w with
    | nil => rfl
    | cons y ys => simp at h
  | cons x xs ih =>
    cases w with
    | nil => simp at h
    | cons y ys => simpa [vadd, vsmul] using ih ys (by simpa using h)

theorem multRow_nil (t : ℤ) : multRow [] t = [] := rfl

theorem multRow_cons (r : ℤ) (rs : List ℤ) (t : ℤ) :
    multRow (r :: rs) t =
      (if 0 ≤ t ∧ t < r then (1:ℚ) else 0) :: multRow rs (t - r) := by
  unfold multRow
  rw [List.length_cons, List.range_succ_eq_map, List.map_cons, List.map_map]
  congr 1
  · rw [cumsum0_getD_zero, cumsum0_getD_succ r rs 0 (Nat.zero_le _), cumsum0_getD_zero,
      add_zero]
  · apply List.map_congr_left
    intro j hj
    have hjlt : j < rs.length := List.mem_range.mp hj
    simp only [Function.comp]
    rw [Nat.succ_eq_add_one, cumsum0_getD_succ r rs j (le_of_lt hjlt),
      cumsum0_getD_succ r rs (j+1) hjlt]
    congr 1
    rw [eq_iff_iff]
    constructor <;> intro h <;> exact ⟨by omega, by omega⟩

theorem matVec_nil (encOut : List Vec) (D : ℕ) : matVec [] encOut D = vzero D := rfl

theorem matVec_cons (r : ℚ) (row : List ℚ) (v : Vec) (rest : List Vec) (D : ℕ) :
    matVec (r :: row) (v :: rest) D = vadd (vsmul r v) (matVec row rest D) := rfl

/-- Frames left of 0 or at/after the total rep count select no token: the
matmul row is all zeros and the output frame is the zero vector. -/
theorem matVec_multRow_out_of_range (reps : List ℤ) (encOut : List Vec) (D : ℕ)
    (t : ℤ) (hnn : ∀ r ∈ reps, 0 ≤ r) (hlen : encOut.length = reps.length)
    (hD : ∀ v ∈ encOut, v.length = D)
    (ht : t < 0 ∨ reps.sum ≤ t) :
    matVec (multRow reps t) encOut D = vzero D := by
  induction reps generalizing encOut t with
  | nil => cases encOut with
    | nil => rfl
    | cons v rest => simp at hlen
  | cons r rs ih =>
    cases encOut with
    | nil => simp at hlen
    | cons v rest =>
      have hr : 0 ≤ r := hnn r (List.mem_cons_self r rs)
      have hrs : ∀ x ∈ rs, 0 ≤ x := fun x hx => hnn x (List.mem_cons_of_mem r hx)
      have hrs_sum : 0 ≤ rs.sum := List.sum_nonneg hrs
      have hcond : ¬ (0 ≤ t ∧ t < r) := by
        rcases ht with h | h
        · omega
        · rw [List.sum_cons] at h; omega
      have htail : t - r < 0 ∨ rs.sum ≤ t - r := by
        rcases ht with h | h
        · left; omega
        · right; rw [List.sum_cons] at h; omega
      rw [multRow_cons, matVec_cons, if_neg hcond,
        ih rest (t - r) hrs (by simpa using hlen)
          (fun w hw => hD w (List.mem_cons_of_mem v hw)) htail,
        vsmul_zero_vadd v (vzero D) (by simp [vzero, hD v (List.mem_cons_self v rest)])]

/-- A frame index inside the total rep count lands in exactly one token's
cumulative interval, and the matmul row selects that token's feature vector. -/
theorem matVec_multRow_in_range (reps : List ℤ) (encOut : List Vec) (D : ℕ)
    (t : ℤ) (hnn : ∀ r ∈ reps, 0 ≤ r) (hlen : encOut.length = reps.length)
    (hD : ∀ v ∈ encOut, v.length = D)
    (ht0 : 0 ≤ t) (htlt : t < reps.sum) :
    ∃ j, j < reps.length ∧
      (cumsum0 reps).getD j 0 ≤ t ∧ t < (cumsum0 reps).getD (j+1) 0 ∧
      matVec (multRow reps t) encOut D = encOut.getD j [] := by
  induction reps generalizing encOut t with
  | nil => simp at htlt; omega
  | cons r rs ih =>
    cases encOut with
    | nil => simp at hlen
    | cons v rest =>
      have hr : 0 ≤ r := hnn r (List.mem_cons_self r rs)
      have hrs : ∀ x ∈ rs, 0 ≤ x := fun x hx => hnn x (List.mem_cons_of_mem r hx)
      have hDrest : ∀ w ∈ rest, w.length = D :=
        fun w hw => hD w (List.mem_cons_of_mem v hw)
      have hlenrest : rest.length = rs.length := by simpa using hlen
      by_cases hcase : t < r
      · refine ⟨0, by simp, ?_, ?_, ?_⟩
        · rw [cumsum0_getD_zero]; exact ht0
        · rw [cumsum0_getD_succ r rs 0 (Nat.zero_le _), cumsum0_getD_zero, add_zero]
          exact hcase
        · rw [multRow_cons, matVec_cons, if_pos ⟨ht0, hcase⟩, vsmul_one,
            matVec_multRow_out_of_range rs rest D (t - r) hrs hlenrest hDrest
              (Or.inl (by omega)),
            vadd_vzero v D (hD v (List.mem_cons_self v rest))]
          rfl
      · push_neg at hcase
        have htlt' : t - r < rs.sum := by rw [List.sum_cons] at htlt; omega
        obtain ⟨j, hjlt, hlo, hhi, heq⟩ :=
          ih rest (t - r) hrs hlenrest hDrest (by omega) htlt'
        refine ⟨j + 1, by simpa using hjlt, ?_, ?_, ?_⟩
        · rw [cumsum0_getD_succ r rs j (le_of_lt hjlt)]; omega
        · rw [cumsum0_getD_succ r rs (j+1) hjlt]; omega
        · rw [multRow_cons, matVec_cons, if_neg (by omega), heq,
            vsmul_zero_vadd v (rest.getD j [])]
          · rfl
          · rw [hD v (List.mem_cons_self v rest)]
            rw [List.getD_eq_getElem _ _ (by omega)]
            exact (hDrest _ (List.getElem_mem _)).symm

/-- Uniqueness of the selecting token: two distinct indices cannot both have
cumulative intervals containing `t` when all reps are non-negative. -/
theorem multRow_interval_unique (reps : List ℤ) (t : ℤ)
    (hnn : ∀ r ∈ reps, 0 ≤ r) (i j : ℕ) (hi : i < reps.length) (hj : j < reps.length)
    (hio : (cumsum0 reps).getD i 0 ≤ t ∧ t < (cumsum0 reps).getD (i+1) 0)
    (hjo : (cumsum0 reps).getD j 0 ≤ t ∧ t < (cumsum0 reps).getD (j+1) 0) :
    i = j := by
  by_contra hne
  rcases Nat.lt_or_ge i j with h | h
  · have : (cumsum0 reps).getD (i+1) 0 ≤ (cumsum0 reps).getD j 0 :=
      cumsum0_getD_mono reps hnn (i+1) j h (le_of_lt hj)
    omega
  · have hji : j < i := by omega
    have : (cumsum0 reps).getD (j+1) 0 ≤ (cumsum0 reps).getD i 0 :=
      cumsum0_getD_mono reps hnn (j+1) i hji (le_of_lt hi)
    omega

/-- With a positive pace and non-negative durations, every rounded rep count
is non-negative. -/
theorem repsOf_nonneg (pace : ℚ) (durations : List ℚ) (hpace : 0 < pace)
    (hdur : ∀ d ∈ durations, 0 ≤ d) : ∀ r ∈ repsOf pace durations, 0 ≤ r := by
  intro r hr
  obtain ⟨d, hd, rfl⟩ := List.mem_map.mp hr
  have hdp : (0:ℚ) ≤ d / pace := div_nonneg (hdur d hd) (le_of_lt hpace)
  have hv : (0:ℚ) ≤ d / pace + 1/2 := by linarith
  rw [pyLong, if_pos hv]
  exact Int.le_floor.mpr (by exact_mod_cast hv)

theorem decLen_nonneg (pace : ℚ) (durations : List ℚ) (hpace : 0 < pace)
    (hdur : ∀ d ∈ durations, 0 ≤ d) : 0 ≤ decLen pace durations :=
  List.sum_nonneg (repsOf_nonneg pace durations hpace hdur)

theorem regulateSample_length (pace : ℚ) (durations : List ℚ) (encOut : List Vec)
    (D n : ℕ) : (regulateSample pace durations encOut D n).length = n := by
  simp [regulateSample]

theorem regulateSample_getD (pace : ℚ) (durations : List ℚ) (encOut : List Vec)
    (D n t : ℕ) (ht : t < n) :
    (regulateSample pace durations encOut D n).getD t []
      = matVec (multRow (repsOf pace durations) t) encOut D := by
  rw [regulateSample, List.getD_eq_getElem _ _ (by simpa using ht)]
  simp [regulateFrame]

/-- Per-sample content of a `regulate_len` output row: frames below the
sample's decoder length copy the unique selected token's features, frames at
or beyond it are zero. -/
theorem regulateSample_spec (pace : ℚ) (durations : List ℚ) (encOut : List Vec)
    (D n : ℕ) (hpace : 0 < pace) (hdur : ∀ d ∈ durations, 0 ≤ d)
    (hlen : encOut.length = durations.length) (hD : ∀ v ∈ encOut, v.length = D)
    (t : ℕ) (ht : t < n) :
    ((t:ℤ) < decLen pace durations →
      ∃ j, (j < durations.length ∧
          (cumsum0 (repsOf pace durations)).getD j 0 ≤ (t:ℤ) ∧
          (t:ℤ) < (cumsum0 (repsOf pace durations)).getD (j+1) 0 ∧
          (regulateSample pace durations encOut D n).getD t [] = encOut.getD j []) ∧
        ∀ j', j' < durations.length →
          (cumsum0 (repsOf pace durations)).getD j' 0 ≤ (t:ℤ) →
          (t:ℤ) < (cumsum0 (repsOf pace durations)).getD (j'+1) 0 → j' = j) ∧
    (decLen pace durations ≤ (t:ℤ) →
      (regulateSample pace durations encOut D n).getD t [] = vzero D) := by
  have hnn := repsOf_nonneg pace durations hpace hdur
  have hreplen : (repsOf pace durations).length = durations.length := by
    simp [repsOf]
  have hlen' : encOut.length = (repsOf pace durations).length := by
    rw [hreplen]; exact hlen
  constructor
  · intro htlt
    obtain ⟨j, hjlt, hlo, hhi, heq⟩ :=
      matVec_multRow_in_range (repsOf pace durations) encOut D t hnn hlen' hD
        (by exact_mod_cast Nat.zero_le t) (by rwa [decLen] at htlt)
    refine ⟨j, ⟨by rwa [hreplen] at hjlt, hlo, hhi, ?_⟩, ?_⟩
    · rw [regulateSample_getD pace durations encOut D n t ht]; exact heq
    · intro j' hj' hlo' hhi'
      exact multRow_interval_unique (repsOf pace durations) t hnn j' j
        (by rwa [hreplen]) hjlt ⟨hlo', hhi'⟩ ⟨hlo, hhi⟩
  · intro hge
    rw [regulateSample_getD pace durations encOut D n t ht]
    exact matVec_multRow_out_of_range (repsOf pace durations) encOut D t hnn hlen' hD
      (Or.inr (by rwa [decLen] at hge))

/-! ### Claim theorems about `regulate_len` -/

/-- **C10** (implicit length-regulator padding invariant): for every batch of
samples with non-negative durations and shape-consistent encoder outputs,
`regulate_len` returns one row per sample, each with
max-over-batch-of-output-lengths frames; within each sample, every frame
whose index is below that sample's output length equals exactly one token's
feature vector — the unique token whose cumulative-duration interval contains
the frame index — and every frame at or beyond that sample's output length is
the all-zero vector. -/
theorem regulate_len_padding_invariant
    (pace : ℚ) (batch : List (List ℚ × List Vec)) (D : ℕ)
    (hpace : 0 < pace)
    (hdur : ∀ s ∈ batch, ∀ d ∈ s.1, 0 ≤ d)
    (hlen : ∀ s ∈ batch, s.2.length = s.1.length)
    (hD : ∀ s ∈ batch, ∀ v ∈ s.2, v.length = D) :
    (regulate_len pace batch D none).1.length = batch.length ∧
    maxLen pace (batch.map Prod.fst)
      = (((regulate_len pace batch D none).2.map Int.toNat).foldr max 0) ∧
    ∀ b, b < batch.length →
      ((regulate_len pace batch D none).1.getD b []).length
        = maxLen pace (batch.map Prod.fst) ∧
      (regulate_len pace batch D none).2.getD b 0
        = decLen pace (batch.getD b ([], [])).1 ∧
      ∀ t, t < maxLen pace (batch.map Prod.fst) →
        (((t:ℤ) < decLen pace (batch.getD b ([], [])).1 →
          ∃ j, (j < (batch.getD b ([], [])).1.length ∧
              (cumsum0 (repsOf pace (batch.getD b ([], [])).1)).getD j 0 ≤ (t:ℤ) ∧
              (t:ℤ) < (cumsum0 (repsOf pace (batch.getD b ([], [])).1)).getD (j+1) 0 ∧
              ((regulate_len pace batch D none).1.getD b []).getD t []
                = (batch.getD b ([], [])).2.getD j []) ∧
            ∀ j', j' < (batch.getD b ([], [])).1.length →
              (cumsum0 (repsOf pace (batch.getD b ([], [])).1)).getD j' 0 ≤ (t:ℤ) →
              (t:ℤ) < (cumsum0 (repsOf pace (batch.getD b ([], [])).1)).getD (j'+1) 0 →
              j' = j) ∧
        (decLen pace (batch.getD b ([], [])).1 ≤ (t:ℤ) →
          ((regulate_len pace batch D none).1.getD b []).getD t [] = vzero D)) := by
  refine ⟨by simp [regulate_len], ?_, ?_⟩
  · simp only [regulate_len, maxLen, List.map_map]
    congr 1
  · intro b hb
    have hmem : batch.getD b ([], []) ∈ batch := by
      rw [List.getD_eq_getElem _ _ hb]
      exact List.getElem_mem _
    have hrow : (regulate_len pace batch D none).1.getD b []
        = regulateSample pace (batch.getD b ([], [])).1 (batch.getD b ([], [])).2 D
            (maxLen pace (batch.map Prod.fst)) := by
      simp only [regulate_len]
      rw [List.getD_eq_getElem _ _ (by simpa using hb), List.getElem_map,
        List.getD_eq_getElem _ _ hb]
    have hdec : (regulate_len pace batch D none).2.getD b 0
        = decLen pace (batch.getD b ([], [])).1 := by
      simp only [regulate_len]
      rw [List.getD_eq_getElem _ _ (by simpa using hb), List.getElem_map,
        List.getD_eq_getElem _ _ hb]
    refine ⟨by rw [hrow, regulateSample_length], hdec, ?_⟩
    intro t ht
    have hspec := regulateSample_spec pace (batch.getD b ([], [])).1
      (batch.getD b ([], [])).2 D (maxLen pace (batch.map Prod.fst)) hpace
      (hdur _ hmem) (hlen _ hmem) (hD _ hmem) t ht
    rw [hrow]
    exact hspec

/-- **C8** (pace scaling boundary): for any sample of a batch whose adjusted
durations all round to 0, `regulate_len` is well-defined (it is a total
function) and reports output length 0 for that sample. -/
theorem regulate_len_all_zero_reps
    (pace : ℚ) (batch : List (List ℚ × List Vec)) (D : ℕ) (b : ℕ)
    (hb : b < batch.length)
    (hzero : ∀ r ∈ repsOf pace (batch.getD b ([], [])).1, r = 0) :
    (regulate_len pace batch D none).2.getD b 0 = 0 := by
  have : (regulate_len pace batch D none).2.getD b 0
      = decLen pace (batch.getD b ([], [])).1 := by
    simp only [regulate_len]
    rw [List.getD_eq_getElem _ _ (by simpa using hb), List.getElem_map,
      List.getD_eq_getElem _ _ hb]
  rw [this, decLen]
  exact List.sum_eq_zero hzero

theorem matVec_pair_left (v0 v1 : Vec) (D : ℕ) (h0 : v0.length = D)
    (h1 : v1.length = D) : matVec [1, 0] [v0, v1] D = v0 := by
  show vadd (vsmul 1 v0) (vadd (vsmul 0 v1) (vzero D)) = v0
  rw [vsmul_one, vsmul_zero_vadd v1 (vzero D) (by simp [vzero, h1]),
    vadd_vzero v0 D h0]

theorem matVec_pair_right (v0 v1 : Vec) (D : ℕ) (h0 : v0.length = D)
    (h1 : v1.length = D) : matVec [0, 1] [v0, v1] D = v1 := by
  show vadd (vsmul 0 v0) (vadd (vsmul 1 v1) (vzero D)) = v1
  rw [vsmul_one, vadd_vzero v1 D h1, vsmul_zero_vadd v0 v1 (h0.trans h1.symm)]

/-- **C4** (Length Regulator worked example and pace rounding): adjusted
durations are `round(duration / pace)`; on a 2-token sample with durations
`[2, 3]`, pace 1.0 gives output length 5 with the first 2 frames equal to
token 0's feature vector and the next 3 equal to token 1's; pace 2.0 rounds
the durations to `[1, 2]`, giving output length 3. -/
theorem regulate_len_worked_example (D : ℕ) (v0 v1 : Vec)
    (h0 : v0.length = D) (h1 : v1.length = D) :
    repsOf 1 [2, 3] = [2, 3] ∧
    regulate_len 1 [([2, 3], [v0, v1])] D none = ([[v0, v0, v1, v1, v1]], [5]) ∧
    repsOf 2 [2, 3] = [1, 2] ∧
    regulate_len 2 [([2, 3], [v0, v1])] D none = ([[v0, v1, v1]], [3]) := by
  have hreps1 : repsOf 1 [2, 3] = [2, 3] := by
    norm_num [repsOf, pyLong]
  have hreps2 : repsOf 2 [2, 3] = [1, 2] := by
    norm_num [repsOf, pyLong]
  have hdec1 : decLen 1 [2, 3] = 5 := by rw [decLen, hreps1]; rfl
  have hdec2 : decLen 2 [2, 3] = 3 := by rw [decLen, hreps2]; rfl
  have hmr1 : ∀ t : ℕ, t < 2 → multRow [2, 3] (t : ℤ) = [1, 0] := by
    intro t htlt
    interval_cases t <;> norm_num [multRow_cons, multRow_nil]
  have hmr2 : ∀ t : ℕ, 2 ≤ t → t < 5 → multRow [2, 3] (t : ℤ) = [0, 1] := by
    intro t hge htlt
    interval_cases t <;> norm_num [multRow_cons, multRow_nil]
  have hmr1' : ∀ t : ℕ, t < 1 → multRow [1, 2] (t : ℤ) = [1, 0] := by
    intro t htlt
    interval_cases t
    norm_num [multRow_cons, multRow_nil]
  have hmr2' : ∀ t : ℕ, 1 ≤ t → t < 3 → multRow [1, 2] (t : ℤ) = [0, 1] := by
    intro t hge htlt
    interval_cases t <;> norm_num [multRow_cons, multRow_nil]
  have hsample1 : regulateSample 1 [2, 3] [v0, v1] D 5 = [v0, v0, v1, v1, v1] := by
    have h5 : List.range 5 = [0, 1, 2, 3, 4] := rfl
    simp only [regulateSample, h5, List.map_cons, List.map_nil, regulateFrame, hreps1]
    rw [hmr1 0 (by omega), hmr1 1 (by omega), hmr2 2 (by omega) (by omega),
      hmr2 3 (by omega) (by omega), hmr2 4 (by omega) (by omega),
      matVec_pair_left v0 v1 D h0 h1, matVec_pair_right v0 v1 D h0 h1]
  have hsample2 : regulateSample 2 [2, 3] [v0, v1] D 3 = [v0, v1, v1] := by
    have h3 : List.range 3 = [0, 1, 2] := rfl
    simp only [regulateSample, h3, List.map_cons, List.map_nil, regulateFrame, hreps2]
    rw [hmr1' 0 (by omega), hmr2' 1 (by omega) (by omega), hmr2' 2 (by omega) (by omega),
      matVec_pair_left v0 v1 D h0 h1, matVec_pair_right v0 v1 D h0 h1]
  refine ⟨hreps1, ?_, hreps2, ?_⟩
  · have hmax : maxLen 1 [[2, 3]] = 5 := by
      simp [maxLen, hdec1]
    simp only [regulate_len, List.map_cons, List.map_nil, hdec1]
    rw [hmax, hsample1]
  · have hmax : maxLen 2 [[2, 3]] = 3 := by
      simp [maxLen, hdec2]
    simp only [regulate_len, List.map_cons, List.map_nil, hdec2]
    rw [hmax, hsample2]

/-! ### `average_pitch`: the interval averager -/

/-- Plain `torch.cumsum` along the last axis (no leading pad), used for
`durs_cums_ends = torch.cumsum(durs, dim=1)`. -/
def cumsumN : List ℕ → List ℕ
  | [] => []
  | x :: xs => x :: (cumsumN xs).map (x + ·)

/-- `torch.cumsum` with a leading zero over rationals
(`F.pad(torch.cumsum(pitch, dim=2), (1, 0))`). -/
def cumsumQ0 : List ℚ → List ℚ
  | [] => [0]
  | x :: xs => 0 :: (cumsumQ0 xs).map (x + ·)

/-- `F.pad(torch.cumsum(pitch != 0.0, dim=2), (1, 0))`: padded cumulative
count of non-zero frames. -/
def pitchNonzeroCums (pitch : List ℚ) : List ℚ :=
  cumsumQ0 (pitch.map (fun x => if x ≠ 0 then (1:ℚ) else 0))

/-- `F.pad(torch.cumsum(pitch, dim=2), (1, 0))`: padded cumulative sums. -/
def pitchCums (pitch : List ℚ) : List ℚ := cumsumQ0 pitch

/-- `average_pitch` restricted to one (sample, formant channel) pair: gather
the padded cumulative sums/counts at the interval boundaries given by the
duration cumsums, and divide, with the zero-count branch returning 0. -/
def averagePitchChan (pitch : List ℚ) (durs : List ℕ) : List ℚ :=
  let ends := cumsumN durs
  let starts := 0 :: ends.dropLast
  (List.range durs.length).map (fun j =>
    let s := (pitchCums pitch).getD (ends.getD j 0) 0
      - (pitchCums pitch).getD (starts.getD j 0) 0
    let n := (pitchNonzeroCums pitch).getD (ends.getD j 0) 0
      - (pitchNonzeroCums pitch).getD (starts.getD j 0) 0
    if n = 0 then n else s / n)

/-- `average_pitch(pitch, durs)`: `pitch` has shape (batch, channels, frames),
`durs` shape (batch, tokens); the gather/expand broadcast applies the same
per-channel interval averaging across every formant channel of a sample. -/
def average_pitch (pitch : List (List (List ℚ))) (durs : List (List ℕ)) :
    List (List (List ℚ)) :=
  List.zipWith (fun chans d => chans.map (fun c => averagePitchChan c d)) pitch durs

/-- The frame window assigned to the token starting at frame `start` with
duration `len`. -/
def tokenWindow (pitch : List ℚ) (start len : ℕ) : List ℚ :=
  (pitch.drop start).take len

/-- Modelled from the spec's wording of the contract: arithmetic mean of the
non-zero values of a window, and 0 when there are none. -/
def meanNonzeroSpec (w : List ℚ) : ℚ :=
  let nz := w.filter (fun x => x ≠ 0)
  if nz.length = 0 then 0 else nz.sum / (nz.length : ℚ)

theorem cumsumQ0_length (l : List ℚ) : (cumsumQ0 l).length = l.length + 1 := by
  induction l with
  | nil => rfl
  | cons x xs ih => simp [cumsumQ0, ih]

theorem cumsumQ0_getD_succ (x : ℚ) (xs : List ℚ) (j : ℕ) (h : j ≤ xs.length) :
    (cumsumQ0 (x :: xs)).getD (j+1) 0 = x + (cumsumQ0 xs).getD j 0 := by
  have hj : j < (cumsumQ0 xs).length := by rw [cumsumQ0_length]; omega
  simp only [cumsumQ0, List.getD_cons_succ]
  rw [List.getD_eq_getElem _ _ (by simpa), List.getD_eq_getElem _ _ hj, List.getElem_map]

theorem cumsumQ0_getD_eq_sum_take (l : List ℚ) (j : ℕ) (h : j ≤ l.length) :
    (cumsumQ0 l).getD j 0 = (l.take j).sum := by
  induction l generalizing j with
  | nil =>
    have hj0 : j = 0 := by simpa using h
    subst hj0; rfl
  | cons x xs ih =>
    cases j with
    | zero => rfl
    | succ j =>
      rw [cumsumQ0_getD_succ x xs j (by simpa using h), ih j (by simpa using h)]
      simp

theorem cumsumN_getD (l : List ℕ) (j : ℕ) (h : j < l.length) :
    (cumsumN l).getD j 0 = (l.take (j+1)).sum := by
  induction l generalizing j with
  | nil => simp at h
  | cons x xs ih =>
    cases j with
    | zero => simp [cumsumN]
    | succ j =>
      have hj : j < xs.length := by simpa using h
      have hlen : (cumsumN xs).length = xs.length := by
        clear ih hj h
        induction xs with
        | nil => rfl
        | cons y ys ihy => simp [cumsumN, ihy]
      simp only [cumsumN, List.getD_cons_succ]
      rw [List.getD_eq_getElem _ _ (by rw [List.length_map, hlen]; exact hj),
        List.getElem_map, ← List.getD_eq_getElem _ 0 (by rw [hlen]; exact hj), ih j hj]
      simp

/-- Splitting a prefix sum at an intermediate point (rational lists). -/
theorem sum_take_add (l : List ℚ) (s d : ℕ) :
    (l.take (s + d)).sum = (l.take s).sum + ((l.drop s).take d).sum := by
  rw [List.take_add, List.sum_append]

/-- The cumulative non-zero counter sums the indicator over the window:
its value is the number of non-zero entries of the prefix. -/
theorem indicator_sum_eq_filter_length (w : List ℚ) :
    ((w.map (fun x => if x ≠ 0 then (1:ℚ) else 0)).sum)
      = ((w.filter (fun x => x ≠ 0)).length : ℚ) := by
  induction w with
  | nil => simp
  | cons x xs ih =>
    rw [List.map_cons, List.sum_cons, List.filter_cons, ih]
    by_cases hx : x = 0
    · simp [hx]
    · simp [hx]
      ring

/-- Zero entries contribute nothing: the window sum equals the sum of its
non-zero entries. -/
theorem filter_nonzero_sum (w : List ℚ) :
    (w.filter (fun x => x ≠ 0)).sum = w.sum := by
  induction w with
  | nil => rfl
  | cons x xs ih =>
    simp only [ne_eq, decide_not] at ih
    rw [List.sum_cons, List.filter_cons]
    by_cases hx : x = 0
    · simp [hx, ih]
    · simp [hx, ih]

theorem sum_take_le_sum (l : List ℕ) (k : ℕ) : (l.take k).sum ≤ l.sum := by
  conv_rhs => rw [← List.take_append_drop k l]
  rw [List.sum_append]
  exact Nat.le_add_right _ _

theorem cumsumN_length (l : List ℕ) : (cumsumN l).length = l.length := by
  induction l with
  | nil => rfl
  | cons x xs ih => simp [cumsumN, ih]

theorem sum_take_succ_nat (l : List ℕ) (j : ℕ) (hj : j < l.length) :
    (l.take (j+1)).sum = (l.take j).sum + l.getD j 0 := by
  rw [List.take_succ, List.sum_append, List.getD_eq_getElem _ _ hj,
    List.getElem?_eq_getElem hj]
  simp

/-- The gathered start boundary `durs_cums_starts[j]` is the sum of the first
`j` durations. -/
theorem startsGetD (durs : List ℕ) (j : ℕ) (hj : j < durs.length) :
    ((0 : ℕ) :: (cumsumN durs).dropLast).getD j 0 = (durs.take j).sum := by
  cases j with
  | zero => rfl
  | succ k =>
    have hk : k < durs.length := by omega
    have hk' : k < (cumsumN durs).dropLast.length := by
      rw [List.length_dropLast, cumsumN_length]; omega
    rw [List.getD_cons_succ, List.getD_eq_getElem _ _ hk', List.getElem_dropLast,
      ← List.getD_eq_getElem _ 0 (by rw [cumsumN_length]; exact hk), cumsumN_getD durs k hk]

/-- Each entry of `averagePitchChan` is the mean of the non-zero values over
the token's frame window (0 when the window has no non-zero frame). -/
theorem averagePitchChan_spec (pitch : List ℚ) (durs : List ℕ)
    (hsum : durs.sum = pitch.length) (j : ℕ) (hj : j < durs.length) :
    (averagePitchChan pitch durs).getD j 0
      = meanNonzeroSpec (tokenWindow pitch ((durs.take j).sum) (durs.getD j 0)) := by
  simp only [averagePitchChan]
  rw [List.getD_eq_getElem _ _ (by simpa using hj), List.getElem_map, List.getElem_range]
  have hends : (cumsumN durs).getD j 0 = (durs.take (j+1)).sum := cumsumN_getD durs j hj
  have hstarts : ((0 : ℕ) :: (cumsumN durs).dropLast).getD j 0 = (durs.take j).sum :=
    startsGetD durs j hj
  have hsd : (durs.take (j+1)).sum = (durs.take j).sum + durs.getD j 0 :=
    sum_take_succ_nat durs j hj
  have hele : (durs.take j).sum + durs.getD j 0 ≤ pitch.length := by
    rw [← hsum, ← hsd]; exact sum_take_le_sum durs (j+1)
  have hsle : (durs.take j).sum ≤ pitch.length := le_trans (by omega) hele
  have hcums_e : (pitchCums pitch).getD ((durs.take j).sum + durs.getD j 0) 0
      = (pitch.take ((durs.take j).sum + durs.getD j 0)).sum :=
    cumsumQ0_getD_eq_sum_take pitch _ hele
  have hcums_s : (pitchCums pitch).getD ((durs.take j).sum) 0
      = (pitch.take ((durs.take j).sum)).sum :=
    cumsumQ0_getD_eq_sum_take pitch _ hsle
  have hnzlen : (pitch.map (fun x => if x ≠ 0 then (1:ℚ) else 0)).length = pitch.length :=
    List.length_map _ _
  have hnz_e : (pitchNonzeroCums pitch).getD ((durs.take j).sum + durs.getD j 0) 0
      = ((pitch.map (fun x => if x ≠ 0 then (1:ℚ) else 0)).take
          ((durs.take j).sum + durs.getD j 0)).sum :=
    cumsumQ0_getD_eq_sum_take _ _ (by rw [hnzlen]; exact hele)
  have hnz_s : (pitchNonzeroCums pitch).getD ((durs.take j).sum) 0
      = ((pitch.map (fun x => if x ≠ 0 then (1:ℚ) else 0)).take ((durs.take j).sum)).sum :=
    cumsumQ0_getD_eq_sum_take _ _ (by rw [hnzlen]; exact hsle)
  rw [hends, hstarts, hsd, hcums_e, hcums_s, hnz_e, hnz_s,
    sum_take_add pitch ((durs.take j).sum) (durs.getD j 0),
    sum_take_add (pitch.map (fun x => if x ≠ 0 then (1:ℚ) else 0))
      ((durs.take j).sum) (durs.getD j 0)]
  have hwin : ((pitch.map (fun x => if x ≠ 0 then (1:ℚ) else 0)).drop
        ((durs.take j).sum)).take (durs.getD j 0)
      = (tokenWindow pitch ((durs.take j).sum) (durs.getD j 0)).map
          (fun x => if x ≠ 0 then (1:ℚ) else 0) := by
    rw [tokenWindow, List.map_take, List.map_drop]
  rw [add_sub_cancel_left, add_sub_cancel_left, hwin,
    indicator_sum_eq_filter_length (tokenWindow pitch ((durs.take j).sum) (durs.getD j 0))]
  rw [meanNonzeroSpec]
  have htw : List.take (durs.getD j 0) (List.drop ((durs.take j).sum) pitch)
      = tokenWindow pitch ((durs.take j).sum) (durs.getD j 0) := rfl
  rw [htw, ← filter_nonzero_sum (tokenWindow pitch ((durs.take j).sum)
      (durs.getD j 0))]
  by_cases hz :
      ((tokenWindow pitch ((durs.take j).sum) (durs.getD j 0)).filter
        (fun x => x ≠ 0)).length = 0
  · rw [hz]
    simp
  · rw [if_neg (by exact_mod_cast hz), if_neg hz]

/-- **C3** (Interval Averager contract): for every signal of shape
(batch, channels, frames) and non-negative integer durations whose per-sample
sum equals that sample's frame count, each entry of `average_pitch` equals
the arithmetic mean of the signal over the token's assigned frame interval
counting only the non-zero frames; when the interval has no non-zero sample
(including zero-duration tokens) the entry is 0 — `meanNonzeroSpec` returns
an exact 0 in that branch, never a division by zero. -/
theorem average_pitch_contract (pitch : List (List (List ℚ))) (durs : List (List ℕ))
    (hlen : pitch.length = durs.length)
    (hsum : ∀ b, b < pitch.length → ∀ chan ∈ pitch.getD b [],
      (durs.getD b []).sum = chan.length) :
    ∀ b, b < pitch.length → ∀ c, c < (pitch.getD b []).length →
      ∀ j, j < (durs.getD b []).length →
        (((average_pitch pitch durs).getD b []).getD c []).getD j 0
          = meanNonzeroSpec (tokenWindow ((pitch.getD b []).getD c [])
              (((durs.getD b []).take j).sum) ((durs.getD b []).getD j 0)) := by
  intro b hb c hc j hj
  have hb' : b < durs.length := hlen ▸ hb
  have hzip : (average_pitch pitch durs).getD b []
      = (pitch.getD b []).map (fun ch => averagePitchChan ch (durs.getD b [])) := by
    rw [average_pitch,
      List.getD_eq_getElem _ _ (by rw [List.length_zipWith]; omega),
      List.getElem_zipWith, List.getD_eq_getElem _ _ hb, List.getD_eq_getElem _ _ hb']
  have hmap : (List.map (fun ch => averagePitchChan ch (durs.getD b []))
        (pitch.getD b [])).getD c []
      = averagePitchChan ((pitch.getD b []).getD c []) (durs.getD b []) := by
    rw [List.getD_eq_getElem _ _ (by simpa using hc), List.getElem_map]
    congr 1
    rw [List.getD_eq_getElem _ _ hc]
  rw [hzip, hmap]
  exact averagePitchChan_spec ((pitch.getD b []).getD c []) (durs.getD b [])
    (hsum b hb _ (by rw [List.getD_eq_getElem _ _ hc]; exact List.getElem_mem _)) j hj

/-- Evaluation of the interval averager on the spec's worked example: the
token with frames `[1,1,1]` averages to 1, the zero-duration token yields 0,
and the token with frames `[0,5]` averages only its non-zero frame, giving 5. -/
theorem averagePitchChan_example :
    averagePitchChan [1, 1, 1, 0, 5] [3, 0, 2] = [1, 0, 5] := by
  have hl : (averagePitchChan [1, 1, 1, 0, 5] [3, 0, 2]).length = 3 := by
    simp [averagePitchChan]
  have hspec := fun (j : ℕ) (hj : j < 3) =>
    averagePitchChan_spec [1, 1, 1, 0, 5] [3, 0, 2] (by norm_num) j (by simpa using hj)
  apply List.ext_getElem (by rw [hl]; rfl)
  intro i h1 h2
  have hi : i < 3 := by rw [hl] at h1; exact h1
  interval_cases i
  · have h := hspec 0 (by norm_num)
    have e : tokenWindow [1, 1, 1, 0, 5] ((([3, 0, 2] : List ℕ).take 0).sum)
        (([3, 0, 2] : List ℕ).getD 0 0) = [1, 1, 1] := by decide
    rw [e] at h
    rw [← List.getD_eq_getElem _ (0:ℚ) h1, h]
    have hf : List.filter (fun x => decide (x ≠ 0)) [(1:ℚ), 1, 1] = [1, 1, 1] := by decide
    rw [meanNonzeroSpec]
    simp only [hf]
    norm_num
  · have h := hspec 1 (by norm_num)
    have e : tokenWindow [1, 1, 1, 0, 5] ((([3, 0, 2] : List ℕ).take 1).sum)
        (([3, 0, 2] : List ℕ).getD 1 0) = [] := by decide
    rw [e] at h
    rw [← List.getD_eq_getElem _ (0:ℚ) h1, h]
    rw [meanNonzeroSpec]
    norm_num
  · have h := hspec 2 (by norm_num)
    have e : tokenWindow [1, 1, 1, 0, 5] ((([3, 0, 2] : List ℕ).take 2).sum)
        (([3, 0, 2] : List ℕ).getD 2 0) = [0, 5] := by decide
    rw [e] at h
    rw [← List.getD_eq_getElem _ (0:ℚ) h1, h]
    have hf : List.filter (fun x => decide (x ≠ 0)) [(0:ℚ), 5] = [5] := by decide
    rw [meanNonzeroSpec]
    simp only [hf]
    norm_num

/-- **C2 counterexample**: on durations `{3,0,2}` and signal `[1,1,1,0,5]`,
`average_pitch` does *not* return `[1.0, 0.0, 2.5]` — the third token's
average counts only the non-zero frame, giving 5, not `(0+5)/2 = 2.5`. -/
theorem average_pitch_example_not_spec :
    average_pitch [[[1, 1, 1, 0, 5]]] [[3, 0, 2]] ≠ [[[1, 0, 5/2]]] := by
  have h : average_pitch [[[1, 1, 1, 0, 5]]] [[3, 0, 2]]
      = [[averagePitchChan [1, 1, 1, 0, 5] [3, 0, 2]]] := rfl
  rw [h, averagePitchChan_example]
  intro hc
  norm_num at hc

/-- **C2 amended** (Interval Averager worked example): for a single sample
with per-token durations `{3,0,2}` and per-frame signal `[1,1,1,0,5]`,
`average_pitch` returns the per-token averages `[1.0, 0.0, 5.0]` (the
averager counts only non-zero frames). -/
theorem average_pitch_worked_example :
    average_pitch [[[1, 1, 1, 0, 5]]] [[3, 0, 2]] = [[[1, 0, 5]]] := by
  have h : average_pitch [[[1, 1, 1, 0, 5]]] [[3, 0, 2]]
      = [[averagePitchChan [1, 1, 1, 0, 5] [3, 0, 2]]] := rfl
  rw [h, averagePitchChan_example]

/-! ### Incremental-resynthesis splice logic of `infer_using_vals` -/

/-- Shared scanning loop of the two boundary searches in `infer_using_vals`:
walking index `i` along `old` (and `new` in parallel), return the first `i`
at which the Python loop breaks — because the sequences differ at `i`, or
because `new` is exhausted (`i >= len(new)`); `none` when the loop runs off
the end of `old` without breaking. -/
def scanBreak : List ℤ → List ℤ → ℕ → Option ℕ
  | [], _, _ => none
  | _ :: _, [], i => some i
  | o :: os, n :: ns, i => if o ≠ n then some (i : ℕ) else scanBreak os ns (i+1)

/-- Start-boundary detection: only when the two sequences agree at position 0
does the forward scan run; a break at `i` yields `i - 1`, and a scan that
never breaks yields `len(old) - 1`. -/
def computeStartIndex (oldSeq newSeq : List ℤ) : Option ℤ :=
  if oldSeq.getD 0 0 = newSeq.getD 0 0 then
    some (((scanBreak oldSeq newSeq 0).getD oldSeq.length : ℤ) - 1)
  else none

/-- End-boundary detection: both sequences are reversed; only when they agree
at the last position does the backward scan run; a break at reversed index
`i` yields `len(old) - 1 - i + 1 = len(old) - i`, and a scan that never
breaks leaves the boundary unset. -/
def computeEndIndex (oldSeq newSeq : List ℤ) : Option ℤ :=
  if oldSeq.reverse.getD 0 0 = newSeq.reverse.getD 0 0 then
    match scanBreak oldSeq.reverse newSeq.reverse 0 with
    | some i => some ((oldSeq.length : ℤ) - i)
    | none => none
  else none

/-- The front-splice loop `for i in range(start_index+1): arr[i] = existing[i]`. -/
def spliceFront (fresh existing : List ℚ) (startIdx : ℤ) : List ℚ :=
  (List.range (startIdx + 1).toNat).foldl
    (fun acc i => acc.set i (existing.getD i 0)) fresh

/-- The back-splice loop
`for i in range(len(old)-end_index): arr[-i-1] = existing[-i-1]`, with
Python's negative indexing `arr[-i-1] = arr[len(arr)-1-i]`. -/
def spliceBack (fresh existing : List ℚ) (oldLen : ℕ) (endIdx : ℤ) : List ℚ :=
  (List.range ((oldLen : ℤ) - endIdx).toNat).foldl
    (fun acc i => acc.set (acc.length - 1 - i) (existing.getD (existing.length - 1 - i) 0))
    fresh

/-- The whole splice step applied to one prediction array: front replacement
when a start boundary was found, then back replacement when an end boundary
was found. -/
def spliceValues (fresh existing : List ℚ) (oldLen : ℕ) (s e : Option ℤ) : List ℚ :=
  let a := match s with
    | some si => spliceFront fresh existing si
    | none => fresh
  match e with
  | some ei => spliceBack a existing oldLen ei
  | none => a

/-! ### `infer_advanced`: side-data dispatch and error fallback -/

/-- Python truthiness test `x is not None and len(x)` applied to one
component of the pitch-data bundle. -/
def presentNonempty : Option (List ℚ) → Bool
  | none => false
  | some l => l.length != 0

/-- The guard of `infer_advanced`: the bundle is used only when it exists and
all three components (pitch, duration, energy — in the source's tuple order)
are present and non-empty. -/
def bundleComplete
    (pd : Option (Option (List ℚ) × Option (List ℚ) × Option (List ℚ))) : Bool :=
  match pd with
  | none => false
  | some (p, d, e) => presentNonempty p && presentNonempty d && presentNonempty e

/-- The `try/except` of `infer_advanced`: the attempted call's value when it
succeeds, the fallback call's value when it raises. -/
def orFallback {E R : Type} (attempt fallback : Except E R) : Except E R :=
  match attempt with
  | Except.ok r => Except.ok r
  | Except.error _ => fallback

/-- `infer_advanced`, parametrized by the inference body `F` standing for
`infer_using_vals` with the encoder outputs fixed; `F`'s arguments are
`dur_pred_existing`, `pitch_pred_existing`, `energy_pred_existing`,
`old_sequence`, `new_sequence`.  With a complete bundle the side-data call is
tried and any failure falls back to the fully self-predicted call (all five
arguments `none`); otherwise the self-predicted call runs directly. -/
def infer_advanced {E R : Type}
    (F : Option (List ℚ) → Option (List ℚ) → Option (List ℚ) →
      Option (List ℤ) → Option (List ℤ) → Except E R)
    (inputs : List ℤ)
    (pitchData : Option (Option (List ℚ) × Option (List ℚ) × Option (List ℚ)))
    (oldSequence : Option (List ℤ)) : Except E R :=
  if bundleComplete pitchData then
    let parts := pitchData.getD (none, none, none)
    orFallback
      (F (some (parts.2.1.getD [])) (some (parts.1.getD []))
        (some (parts.2.2.getD [])) oldSequence (some inputs))
      (F none none none none none)
  else F none none none none none

/-! ### Training-time duration-sum assertion of `forward` -/

/-- `attn_hard.sum(2)[:, 0, :]` for one sample: per-token frame counts of the
hard alignment (the token axis has length `L`). -/
def attnHardDur (L : ℕ) (attnHard : List (List ℚ)) : List ℚ :=
  (List.range L).map (fun j => (attnHard.map (fun row => row.getD j 0)).sum)

/-- `torch.all(torch.eq(dur_tgt.sum(dim=1), mel_lens))`: every sample's total
target duration equals its mel frame length. -/
def durationSumCheck (L : ℕ) (attnHard : List (List (List ℚ)))
    (melLens : List ℚ) : Bool :=
  (List.zipWith (fun m ml => decide ((attnHardDur L m).sum = ml)) attnHard melLens).all id

/-- The training forward pass around its duration-sum assertion: the rest of
the pipeline (an opaque continuation value) is reached only when the
assertion holds, otherwise the call aborts. -/
def forwardPass (L : ℕ) (attnHard : List (List (List ℚ))) (melLens : List ℚ)
    {R : Type} (rest : R) : Except Unit R :=
  if durationSumCheck L attnHard melLens then Except.ok rest else Except.error ()

/-! ### Duration/pitch clamping in `infer_using_vals` -/

/-- `torch.clamp(x, lo, hi)`. -/
def clampMinMax (x lo hi : ℚ) : ℚ := min (max x lo) hi

/-- `torch.clamp(x, lo)` (lower bound only). -/
def clampMin (x lo : ℚ) : ℚ := max x lo

/-- The branch condition
`(dur_pred_existing is None or pitch_pred_existing is None) or old_sequence is not None`
under which `infer_using_vals` computes its own predictions. -/
def computesOwnPreds (durEx pitchEx : Option (List ℚ))
    (oldSeq : Option (List ℤ)) : Bool :=
  (durEx.isNone || pitchEx.isNone) || oldSeq.isSome

/-- The self-predicted duration pipeline:
`dur_pred = clamp(clamp(exp(log_dur_pred) - 1, 0, max_duration), 0.25)`; the
duration predictor's raw output and `torch.exp` are opaque. -/
def selfDurPred (expFn : ℚ → ℚ) (maxDuration : ℚ) (logDurPred : List ℚ) : List ℚ :=
  logDurPred.map (fun x => clampMin (clampMinMax (expFn x - 1) 0 maxDuration) (1/4))

/-- The self-predicted pitch pipeline: `clamp(pitch_pred, min=-3, max=3)`. -/
def selfPitchPred (pitchRaw : List ℚ) : List ℚ :=
  pitchRaw.map (fun x => clampMinMax x (-3) 3)

/-- The duration/pitch selection step of `infer_using_vals`: self-predict
(and clamp) when no existing values were supplied or an old sequence forces
re-prediction, else take the supplied values. -/
def inferDurPitchPreds (expFn : ℚ → ℚ) (maxDuration : ℚ)
    (logDurPred pitchRaw : List ℚ) (durEx pitchEx : Option (List ℚ))
    (oldSeq : Option (List ℤ)) : List ℚ × List ℚ :=
  if computesOwnPreds durEx pitchEx oldSeq then
    (selfDurPred expFn maxDuration logDurPred, selfPitchPred pitchRaw)
  else (durEx.getD [], pitchEx.getD [])

/-! ### Claim theorems: splice logic, dispatch, assertion, clamping -/

/-- C1 counterexample: on old sequence `[1,2,3,4]` and new sequence
`[1,5,3,4]`, the code's end boundary is 2, not 3 as the claim states, and the
spliced array keeps the externally supplied value at position 2 (as well as
positions 0 and 3) rather than the freshly predicted one. -/
theorem splice_example_refutes_claim :
    computeStartIndex [1, 2, 3, 4] [1, 5, 3, 4] = some 0 ∧
    computeEndIndex [1, 2, 3, 4] [1, 5, 3, 4] ≠ some 3 ∧
    spliceValues [10, 20, 30, 40] [100, 200, 300, 400] 4
        (computeStartIndex [1, 2, 3, 4] [1, 5, 3, 4])
        (computeEndIndex [1, 2, 3, 4] [1, 5, 3, 4])
      ≠ [100, 20, 30, 400] := by
  decide

/-- C1 amended (splice boundary detection): for old tokens `[a,b,c,d]` and
new tokens `[a,x,c,d]` (pairwise distinct), `infer_using_vals` computes start
boundary 0 and end boundary 2; after splicing, positions 0, 2 and 3 of the
duration and pitch arrays hold the externally supplied existing values and
position 1 holds the freshly predicted value. -/
theorem splice_boundaries_amended (a b c d x : ℤ)
    (hdist : [a, b, c, d, x].Pairwise (· ≠ ·))
    (fd0 fd1 fd2 fd3 ed0 ed1 ed2 ed3 fp0 fp1 fp2 fp3 ep0 ep1 ep2 ep3 : ℚ) :
    computeStartIndex [a, b, c, d] [a, x, c, d] = some 0 ∧
    computeEndIndex [a, b, c, d] [a, x, c, d] = some 2 ∧
    spliceValues [fd0, fd1, fd2, fd3] [ed0, ed1, ed2, ed3] 4
        (computeStartIndex [a, b, c, d] [a, x, c, d])
        (computeEndIndex [a, b, c, d] [a, x, c, d]) = [ed0, fd1, ed2, ed3] ∧
    spliceValues [fp0, fp1, fp2, fp3] [ep0, ep1, ep2, ep3] 4
        (computeStartIndex [a, b, c, d] [a, x, c, d])
        (computeEndIndex [a, b, c, d] [a, x, c, d]) = [ep0, fp1, ep2, ep3] := by
  have hbx : b ≠ x :=
    (List.pairwise_cons.mp ((List.pairwise_cons.mp hdist).2)).1 x (by simp)
  have hs : computeStartIndex [a, b, c, d] [a, x, c, d] = some 0 := by
    rw [computeStartIndex]
    have hscan : scanBreak [a, b, c, d] [a, x, c, d] 0 = some 1 := by
      simp [scanBreak, hbx]
    rw [hscan]
    norm_num
  have he : computeEndIndex [a, b, c, d] [a, x, c, d] = some 2 := by
    rw [computeEndIndex]
    have hrev : ([a, b, c, d] : List ℤ).reverse = [d, c, b, a] := by simp
    have hrev' : ([a, x, c, d] : List ℤ).reverse = [d, c, x, a] := by simp
    rw [hrev, hrev']
    have hscan : scanBreak [d, c, b, a] [d, c, x, a] 0 = some 2 := by
      simp [scanBreak, hbx]
    rw [hscan]
    norm_num
  refine ⟨hs, he, ?_, ?_⟩ <;> (rw [hs, he]; rfl)

/-- C5 (inference error policy): when the externally supplied
pitch/duration/energy side-data makes the value-using inference path fail,
`infer_advanced` catches the failure and retries with fully self-predicted
values (all existing values and the old sequence set to `none`); the caller
observes only the result of that retry, never the original failure. -/
theorem infer_advanced_error_fallback {E R : Type}
    (F : Option (List ℚ) → Option (List ℚ) → Option (List ℚ) →
      Option (List ℤ) → Option (List ℤ) → Except E R)
    (inputs : List ℤ) (p d e : List ℚ) (oldSeq : Option (List ℤ)) (err : E)
    (hp : p.length ≠ 0) (hd : d.length ≠ 0) (he : e.length ≠ 0)
    (hfail : F (some d) (some p) (some e) oldSeq (some inputs) = Except.error err) :
    infer_advanced F inputs (some (some p, some d, some e)) oldSeq
        = F none none none none none ∧
    ∀ res, F none none none none none = Except.ok res →
      infer_advanced F inputs (some (some p, some d, some e)) oldSeq
        = Except.ok res := by
  have hcomp : bundleComplete (some (some p, some d, some e)) = true := by
    simp [bundleComplete, presentNonempty, hp, hd, he]
  have hmain : infer_advanced F inputs (some (some p, some d, some e)) oldSeq
      = F none none none none none := by
    rw [infer_advanced, if_pos (by simp [hcomp])]
    show orFallback (F (some d) (some p) (some e) oldSeq (some inputs))
        (F none none none none none) = F none none none none none
    rw [hfail]
    rfl
  exact ⟨hmain, fun res hres => by rw [hmain, hres]⟩

theorem presentNonempty_false_of (o : Option (List ℚ))
    (h : o.isNone ∨ (o.getD []).length = 0) : presentNonempty o = false := by
  cases o with
  | none => rfl
  | some l =>
    rcases h with h | h
    · simp at h
    · simp only [Option.getD_some] at h
      simp [presentNonempty, h]

/-- C9 (implicit all-or-nothing side-data): whenever any of the three bundle
components is missing or empty, `infer_advanced` ignores the whole bundle and
the old sequence, calling the inference body with every side argument `none`
(fully self-predicted, no splicing). -/
theorem infer_advanced_all_or_nothing {E R : Type}
    (F : Option (List ℚ) → Option (List ℚ) → Option (List ℚ) →
      Option (List ℤ) → Option (List ℤ) → Except E R)
    (inputs : List ℤ)
    (pitchData : Option (Option (List ℚ) × Option (List ℚ) × Option (List ℚ)))
    (oldSeq : Option (List ℤ))
    (h : ∀ p d e, pitchData = some (p, d, e) →
      p.isNone ∨ (p.getD []).length = 0 ∨ d.isNone ∨ (d.getD []).length = 0
        ∨ e.isNone ∨ (e.getD []).length = 0) :
    infer_advanced F inputs pitchData oldSeq = F none none none none none := by
  have hfalse : bundleComplete pitchData = false := by
    cases pitchData with
    | none => rfl
    | some t =>
      obtain ⟨p, d, e⟩ := t
      have hpde : presentNonempty p = false ∨ presentNonempty d = false
          ∨ presentNonempty e = false := by
        rcases h p d e rfl with h1 | h1 | h1 | h1 | h1 | h1
        · exact Or.inl (presentNonempty_false_of p (Or.inl h1))
        · exact Or.inl (presentNonempty_false_of p (Or.inr h1))
        · exact Or.inr (Or.inl (presentNonempty_false_of d (Or.inl h1)))
        · exact Or.inr (Or.inl (presentNonempty_false_of d (Or.inr h1)))
        · exact Or.inr (Or.inr (presentNonempty_false_of e (Or.inl h1)))
        · exact Or.inr (Or.inr (presentNonempty_false_of e (Or.inr h1)))
      rcases hpde with h1 | h1 | h1 <;> simp [bundleComplete, h1]
  rw [infer_advanced, if_neg (by simp [hfalse])]

/-- Indexed characterization of the batched duration-sum check. -/
theorem durationSumCheck_iff (L : ℕ) (attnHard : List (List (List ℚ)))
    (melLens : List ℚ) (hlen : attnHard.length = melLens.length) :
    durationSumCheck L attnHard melLens = true ↔
      ∀ b, b < attnHard.length →
        (attnHardDur L (attnHard.getD b [])).sum = melLens.getD b 0 := by
  rw [durationSumCheck, List.all_eq_true]
  constructor
  · intro h b hb
    have hbz : b < (List.zipWith
        (fun m ml => decide ((attnHardDur L m).sum = ml)) attnHard melLens).length := by
      rw [List.length_zipWith]; omega
    have hx := h _ (List.getElem_mem hbz)
    rw [List.getElem_zipWith] at hx
    rw [List.getD_eq_getElem _ _ hb, List.getD_eq_getElem _ _ (by omega)]
    simpa using hx
  · intro h x hx
    obtain ⟨i, hi, rfl⟩ := List.mem_iff_getElem.mp hx
    rw [List.length_zipWith] at hi
    rw [List.getElem_zipWith]
    have hieq := h i (by omega)
    rw [List.getD_eq_getElem _ _ (by omega), List.getD_eq_getElem _ _ (by omega)] at hieq
    simpa using hieq

/-- C6 (training duration-sum check): the training forward pass aborts when
any sample's summed target durations (derived from the hard alignment) differ
from that sample's mel frame length, and does not abort on this check when
every sample's sum matches. -/
theorem forward_duration_sum_assertion (L : ℕ) (attnHard : List (List (List ℚ)))
    (melLens : List ℚ) {R : Type} (rest : R)
    (hlen : attnHard.length = melLens.length) :
    ((∃ b, b < attnHard.length ∧
        (attnHardDur L (attnHard.getD b [])).sum ≠ melLens.getD b 0) →
      forwardPass L attnHard melLens rest = Except.error ()) ∧
    ((∀ b, b < attnHard.length →
        (attnHardDur L (attnHard.getD b [])).sum = melLens.getD b 0) →
      forwardPass L attnHard melLens rest = Except.ok rest) := by
  constructor
  · rintro ⟨b, hb, hne⟩
    have hfalse : durationSumCheck L attnHard melLens = false :=
      Bool.eq_false_iff.mpr (fun htrue =>
        hne (((durationSumCheck_iff L attnHard melLens hlen).mp htrue) b hb))
    rw [forwardPass, if_neg (by simp [hfalse])]
  · intro hall
    rw [forwardPass,
      if_pos ((durationSumCheck_iff L attnHard melLens hlen).mpr hall)]

/-- C7 (inference clamping): whenever `infer_using_vals` computes its own
predictions (no existing duration or pitch supplied, or an old sequence is
supplied), every per-token predicted duration lies in `[0.25, max_duration]`
and every per-token predicted pitch value lies in `[-3, 3]`, for any
`max_duration ≥ 0.25` and any behaviour of the opaque predictors and `exp`. -/
theorem infer_using_vals_clamping
    (expFn : ℚ → ℚ) (maxDuration : ℚ) (logDurPred pitchRaw : List ℚ)
    (durEx pitchEx : Option (List ℚ)) (oldSeq : Option (List ℤ))
    (hmax : 1/4 ≤ maxDuration)
    (hbranch : computesOwnPreds durEx pitchEx oldSeq = true) :
    (∀ v ∈ (inferDurPitchPreds expFn maxDuration logDurPred pitchRaw
        durEx pitchEx oldSeq).1, 1/4 ≤ v ∧ v ≤ maxDuration) ∧
    (∀ v ∈ (inferDurPitchPreds expFn maxDuration logDurPred pitchRaw
        durEx pitchEx oldSeq).2, -3 ≤ v ∧ v ≤ 3) := by
  rw [inferDurPitchPreds]
  simp only [hbranch, if_true]
  constructor
  · intro v hv
    simp only [selfDurPred, List.mem_map] at hv
    obtain ⟨y, _, rfl⟩ := hv
    rw [clampMin, clampMinMax]
    exact ⟨le_max_right _ _, max_le (min_le_right _ _) hmax⟩
  · intro v hv
    simp only [selfPitchPred, List.mem_map] at hv
    obtain ⟨y, _, rfl⟩ := hv
    rw [clampMinMax]
    exact ⟨le_min (le_max_right _ _) (by norm_num), min_le_right _ _⟩

/-! ### Witnesses: each theorem with hypotheses instantiated at a concrete
input -/

/-- Witness for the C4 theorem at dimension 1 with features `[5]` and `[7]`. -/
theorem regulate_len_worked_example_witness :
    ([(5:ℚ)].length = 1) ∧ ([(7:ℚ)].length = 1) ∧
    (repsOf 1 [2, 3] = [2, 3] ∧
      regulate_len 1 [([2, 3], [[5], [7]])] 1 none
        = ([[[5], [5], [7], [7], [7]]], [5]) ∧
      repsOf 2 [2, 3] = [1, 2] ∧
      regulate_len 2 [([2, 3], [[5], [7]])] 1 none = ([[[5], [7], [7]]], [3])) :=
  ⟨rfl, rfl, regulate_len_worked_example 1 [5] [7] rfl rfl⟩

/-- Witness for the C8 theorem: at pace 8 the durations `[1, 2]` all round to
0 and the reported output length is 0. -/
theorem regulate_len_all_zero_reps_witness :
    (0 < [([(1:ℚ), 2], [[(1:ℚ)], [2]])].length) ∧
    (∀ r ∈ repsOf 8 ([([(1:ℚ), 2], [[(1:ℚ)], [2]])].getD 0 ([], [])).1, r = 0) ∧
    (regulate_len 8 [([1, 2], [[1], [2]])] 1 none).2.getD 0 0 = 0 := by
  have hz : ∀ r ∈ repsOf 8 ([([(1:ℚ), 2], [[(1:ℚ)], [2]])].getD 0 ([], [])).1, r = 0 := by
    have hr : repsOf 8 ([([(1:ℚ), 2], [[(1:ℚ)], [2]])].getD 0 ([], [])).1 = [0, 0] := by
      norm_num [repsOf, pyLong]
    rw [hr]
    intro r hr'
    simp only [List.mem_cons, List.not_mem_nil, or_false] at hr'
    rcases hr' with h | h <;> exact h
  exact ⟨by norm_num, hz,
    regulate_len_all_zero_reps 8 [([1, 2], [[1], [2]])] 1 0 (by norm_num) hz⟩

/-- Witness for the C10 theorem on a one-sample batch with durations `[1, 2]`
and one-dimensional features `[5]`, `[7]` at pace 1. -/
theorem regulate_len_padding_invariant_witness :
    (0 < (1:ℚ)) ∧
    ((regulate_len 1 [([1, 2], [[5], [7]])] 1 none).1.length
        = [([(1:ℚ), 2], [[(5:ℚ)], [7]])].length ∧
      maxLen 1 ([([(1:ℚ), 2], [[(5:ℚ)], [7]])].map Prod.fst)
        = (((regulate_len 1 [([1, 2], [[5], [7]])] 1 none).2.map Int.toNat).foldr max 0) ∧
      ∀ b, b < [([(1:ℚ), 2], [[(5:ℚ)], [7]])].length →
        ((regulate_len 1 [([1, 2], [[5], [7]])] 1 none).1.getD b []).length
          = maxLen 1 ([([(1:ℚ), 2], [[(5:ℚ)], [7]])].map Prod.fst) ∧
        (regulate_len 1 [([1, 2], [[5], [7]])] 1 none).2.getD b 0
          = decLen 1 ([([(1:ℚ), 2], [[(5:ℚ)], [7]])].getD b ([], [])).1 ∧
        ∀ t, t < maxLen 1 ([([(1:ℚ), 2], [[(5:ℚ)], [7]])].map Prod.fst) →
          (((t:ℤ) < decLen 1 ([([(1:ℚ), 2], [[(5:ℚ)], [7]])].getD b ([], [])).1 →
            ∃ j, (j < ([([(1:ℚ), 2], [[(5:ℚ)], [7]])].getD b ([], [])).1.length ∧
                (cumsum0 (repsOf 1 ([([(1:ℚ), 2], [[(5:ℚ)], [7]])].getD b
                  ([], [])).1)).getD j 0 ≤ (t:ℤ) ∧
                (t:ℤ) < (cumsum0 (repsOf 1 ([([(1:ℚ), 2], [[(5:ℚ)], [7]])].getD b
                  ([], [])).1)).getD (j+1) 0 ∧
                ((regulate_len 1 [([1, 2], [[5], [7]])] 1 none).1.getD b []).getD t []
                  = ([([(1:ℚ), 2], [[(5:ℚ)], [7]])].getD b ([], [])).2.getD j []) ∧
              ∀ j', j' < ([([(1:ℚ), 2], [[(5:ℚ)], [7]])].getD b ([], [])).1.length →
                (cumsum0 (repsOf 1 ([([(1:ℚ), 2], [[(5:ℚ)], [7]])].getD b
                  ([], [])).1)).getD j' 0 ≤ (t:ℤ) →
                (t:ℤ) < (cumsum0 (repsOf 1 ([([(1:ℚ), 2], [[(5:ℚ)], [7]])].getD b
                  ([], [])).1)).getD (j'+1) 0 →
                j' = j) ∧
          (decLen 1 ([([(1:ℚ), 2], [[(5:ℚ)], [7]])].getD b ([], [])).1 ≤ (t:ℤ) →
            ((regulate_len 1 [([1, 2], [[5], [7]])] 1 none).1.getD b []).getD t []
              = vzero 1))) := by
  refine ⟨by norm_num, ?_⟩
  exact regulate_len_padding_invariant 1 [([1, 2], [[5], [7]])] 1 (by norm_num)
    (by
      intro s hs
      simp only [List.mem_singleton] at hs
      subst hs
      intro dd hdd
      simp only [List.mem_cons, List.not_mem_nil, or_false] at hdd
      rcases hdd with h | h <;> (subst h; norm_num))
    (by
      intro s hs
      simp only [List.mem_singleton] at hs
      subst hs
      rfl)
    (by
      intro s hs
      simp only [List.mem_singleton] at hs
      subst hs
      intro v hv
      simp only [List.mem_cons, List.not_mem_nil, or_false] at hv
      rcases hv with h | h <;> (subst h; rfl))

/-- Witness for the amended C1 theorem at tokens `1,2,3,4` with editing
token `5`, fresh values `10,20,30,40` / `11,21,31,41` and existing values
`100,200,300,400` / `101,201,301,401`. -/
theorem splice_boundaries_amended_witness :
    ([(1:ℤ), 2, 3, 4, 5].Pairwise (· ≠ ·)) ∧
    (computeStartIndex [1, 2, 3, 4] [1, 5, 3, 4] = some 0 ∧
      computeEndIndex [1, 2, 3, 4] [1, 5, 3, 4] = some 2 ∧
      spliceValues [10, 20, 30, 40] [100, 200, 300, 400] 4
          (computeStartIndex [1, 2, 3, 4] [1, 5, 3, 4])
          (computeEndIndex [1, 2, 3, 4] [1, 5, 3, 4]) = [100, 20, 300, 400] ∧
      spliceValues [11, 21, 31, 41] [101, 201, 301, 401] 4
          (computeStartIndex [1, 2, 3, 4] [1, 5, 3, 4])
          (computeEndIndex [1, 2, 3, 4] [1, 5, 3, 4]) = [101, 21, 301, 401]) :=
  ⟨by decide, splice_boundaries_amended 1 2 3 4 5 (by decide)
    10 20 30 40 100 200 300 400 11 21 31 41 101 201 301 401⟩

/-- Witness for the C3 theorem on the one-sample, one-channel signal
`[1,1,1,0,5]` with durations `[3,0,2]`. -/
theorem average_pitch_contract_witness :
    ([[[(1:ℚ), 1, 1, 0, 5]]].length = [[(3:ℕ), 0, 2]].length) ∧
    (∀ b, b < [[[(1:ℚ), 1, 1, 0, 5]]].length →
      ∀ chan ∈ [[[(1:ℚ), 1, 1, 0, 5]]].getD b [],
        ([[(3:ℕ), 0, 2]].getD b []).sum = chan.length) ∧
    (∀ b, b < [[[(1:ℚ), 1, 1, 0, 5]]].length →
      ∀ c, c < ([[[(1:ℚ), 1, 1, 0, 5]]].getD b []).length →
      ∀ j, j < ([[(3:ℕ), 0, 2]].getD b []).length →
        (((average_pitch [[[1, 1, 1, 0, 5]]] [[3, 0, 2]]).getD b []).getD c []).getD j 0
          = meanNonzeroSpec (tokenWindow (([[[(1:ℚ), 1, 1, 0, 5]]].getD b []).getD c [])
              ((([[(3:ℕ), 0, 2]].getD b []).take j).sum)
              (([[(3:ℕ), 0, 2]].getD b []).getD j 0))) := by
  have hsum : ∀ b, b < [[[(1:ℚ), 1, 1, 0, 5]]].length →
      ∀ chan ∈ [[[(1:ℚ), 1, 1, 0, 5]]].getD b [],
        ([[(3:ℕ), 0, 2]].getD b []).sum = chan.length := by
    intro b hb chan hchan
    have hb1 : b < 1 := by simpa using hb
    interval_cases b
    simp only [List.getD_cons_zero, List.mem_singleton] at hchan ⊢
    subst hchan
    rfl
  exact ⟨rfl, hsum, average_pitch_contract [[[1, 1, 1, 0, 5]]] [[3, 0, 2]] rfl hsum⟩

/-- Instrumented inference body used by the `infer_advanced` witnesses: it
fails exactly when an existing duration array is passed in. -/
def probeF : Option (List ℚ) → Option (List ℚ) → Option (List ℚ) →
    Option (List ℤ) → Option (List ℤ) → Except Unit Unit :=
  fun durEx _ _ _ _ =>
    match durEx with
    | some _ => Except.error ()
    | none => Except.ok ()

/-- Witness for the C5 theorem: `probeF` fails on the side-data call, and
`infer_advanced` returns the self-predicted call's result. -/
theorem infer_advanced_error_fallback_witness :
    (([(1:ℚ)] : List ℚ).length ≠ 0) ∧
    probeF (some [1]) (some [1]) (some [1]) none (some [2]) = Except.error () ∧
    (infer_advanced probeF [2] (some (some [1], some [1], some [1])) none
        = probeF none none none none none ∧
      ∀ res, probeF none none none none none = Except.ok res →
        infer_advanced probeF [2] (some (some [1], some [1], some [1])) none
          = Except.ok res) :=
  ⟨by decide, rfl, infer_advanced_error_fallback probeF [2] [1] [1] [1] none ()
    (by decide) (by decide) (by decide) rfl⟩

/-- Witness for the C9 theorem: an empty pitch component makes
`infer_advanced` ignore the bundle and the old sequence. -/
theorem infer_advanced_all_or_nothing_witness :
    (∀ p d e, (some (some ([] : List ℚ), some ([1] : List ℚ), some ([1] : List ℚ))
        : Option (Option (List ℚ) × Option (List ℚ) × Option (List ℚ)))
          = some (p, d, e) →
      p.isNone = true ∨ (p.getD []).length = 0 ∨ d.isNone = true
        ∨ (d.getD []).length = 0 ∨ e.isNone = true ∨ (e.getD []).length = 0) ∧
    infer_advanced probeF [2] (some (some [], some [1], some [1])) (some [9])
      = probeF none none none none none := by
  have h : ∀ p d e, (some (some ([] : List ℚ), some ([1] : List ℚ), some ([1] : List ℚ))
      : Option (Option (List ℚ) × Option (List ℚ) × Option (List ℚ)))
        = some (p, d, e) →
      p.isNone = true ∨ (p.getD []).length = 0 ∨ d.isNone = true
        ∨ (d.getD []).length = 0 ∨ e.isNone = true ∨ (e.getD []).length = 0 := by
    intro p d e hh
    simp only [Option.some.injEq, Prod.mk.injEq] at hh
    obtain ⟨h1, h2, h3⟩ := hh
    subst h1
    right
    left
    rfl
  exact ⟨h, infer_advanced_all_or_nothing probeF [2]
    (some (some [], some [1], some [1])) (some [9]) h⟩

/-- Witness for the C6 theorem on a one-sample batch: one token, two frames
of hard attention summing to duration 1, mel length 1. -/
theorem forward_duration_sum_assertion_witness :
    ([[[(1:ℚ)], [0]]].length = [(1:ℚ)].length) ∧
    ((∃ b, b < [[[(1:ℚ)], [0]]].length ∧
        (attnHardDur 1 ([[[(1:ℚ)], [0]]].getD b [])).sum ≠ [(1:ℚ)].getD b 0) →
      forwardPass 1 [[[(1:ℚ)], [0]]] [1] (0:ℕ) = Except.error ()) ∧
    ((∀ b, b < [[[(1:ℚ)], [0]]].length →
        (attnHardDur 1 ([[[(1:ℚ)], [0]]].getD b [])).sum = [(1:ℚ)].getD b 0) →
      forwardPass 1 [[[(1:ℚ)], [0]]] [1] (0:ℕ) = Except.ok 0) :=
  ⟨rfl, forward_duration_sum_assertion 1 [[[1], [0]]] [1] 0 rfl⟩

/-- Witness for the C7 theorem with the identity in place of `exp`,
`max_duration = 75`, raw durations `[0, 100]` and raw pitch `[5, -7]`. -/
theorem infer_using_vals_clamping_witness :
    ((1:ℚ)/4 ≤ 75) ∧ (computesOwnPreds none none none = true) ∧
    ((∀ v ∈ (inferDurPitchPreds id 75 [0, 100] [5, -7] none none none).1,
        1/4 ≤ v ∧ v ≤ 75) ∧
      (∀ v ∈ (inferDurPitchPreds id 75 [0, 100] [5, -7] none none none).2,
        -3 ≤ v ∧ v ≤ 3)) :=
  ⟨by norm_num, rfl, infer_using_vals_clamping id 75 [0, 100] [5, -7]
    none none none (by norm_num) rfl⟩

end FastPitchModel
